import Mathlib

/-!
Verification of the `vsl_json` serializer (`src/vsl_json.py`).

The development shallowly embeds the encoder `VSLJSONEncoder` together with
the module-level helpers `dumps` and `dump`.  Python values that can reach
the encoder are modelled by the inductive type `JVal`; Python floats are
modelled exactly as dyadic rationals `m * 2 ^ e` (every IEEE-754 double is
of this form) plus the three non-finite values.  The encoder's mutable
`indentation_level` field is threaded explicitly: every encoding function
receives the current level and returns the final level next to its result,
so that the level that is left behind by an error path is observable, just
as it is on the Python object.  Python exceptions are modelled by
`Except`: a `TypeError` raised by `json.dumps` on an unsupported value
becomes `EncErr.unsupportedType`, and Python's recursion limit
(`sys.getrecursionlimit()`, 1000 by default) is modelled by a fuel
parameter whose exhaustion becomes `EncErr.outOfFuel`.
-/

namespace VslJson

/-- Configuration of one encoder instance: the `indent` string passed to
`VSLJSONEncoder.__init__` (defaulted to two spaces there) and the
`sort_keys` flag.  The `dumps` entry point of the module fixes
`ensure_ascii=False` and `allow_nan=False`; both are baked into this model
(`allow_nan` is in fact unobservable in the encoder because `encode`
intercepts every float before `json.dumps` is reached). -/
structure Config where
  indent : String
  sortKeys : Bool
deriving DecidableEq, Repr

/-- The configuration produced by the module-level `dumps`:
`json.dumps(data, allow_nan=False, sort_keys=True, ensure_ascii=False,
cls=VSLJSONEncoder)` with the constructor defaulting `indent` to two
spaces. -/
def defaultCfg : Config := { indent := "  ", sortKeys := true }

/-- A Python float: either a finite dyadic value `m * 2 ^ e` (every IEEE
double is of this shape; `-0.0` is not distinguished from `0.0`, and no
claim depends on it) or one of the non-finite values. -/
inductive JFloat where
  | finite (m : Int) (e : Int)
  | nan
  | inf
  | neginf
deriving DecidableEq, Repr

/-- A Python dictionary key as it can appear in input to `_encode_object`:
the null sentinel `None`, a string, or an int (any hashable value would
do; these three suffice for every behaviour the key-normalisation code
distinguishes). -/
inductive PyKey where
  | null
  | str (s : String)
  | int (n : Int)
deriving DecidableEq, Repr

/-- A Python value as seen by `VSLJSONEncoder.encode`.  `arr` covers both
`list` and `tuple` (the code treats them identically), `obj` is a `dict`
whose iteration order is the list order, and `unsupported` stands for any
object of a non-JSON type, on which the `json.dumps` fallback raises
`TypeError`. -/
inductive JVal where
  | null
  | bool (b : Bool)
  | int (n : Int)
  | float (f : JFloat)
  | str (s : String)
  | arr (xs : List JVal)
  | obj (kvs : List (PyKey × JVal))
  | unsupported (tag : Nat)

/-- Errors of one encoding run: a `TypeError` from the `json.dumps`
fallback on an unsupported value, or exhaustion of the modelled recursion
limit. -/
inductive EncErr where
  | unsupportedType
  | outOfFuel
deriving DecidableEq, Repr

/-- Round-to-nearest, ties-to-even division `a / d` for `d > 0`.  This is
the rounding CPython's `float.__format__` applies when printing a double
with a fixed number of decimals. -/
def halfEvenRound (a : Int) (d : Int) : Int :=
  let q := Int.fdiv a d
  let r := a - q * d
  if 2 * r < d then q
  else if d < 2 * r then q + 1
  else if q % 2 = 0 then q else q + 1

/-- Python's `float.is_integer`: a finite `m * 2 ^ e` is an integer iff
`e ≥ 0` or `2 ^ (-e)` divides `m`; `nan`/`inf` answer `False`. -/
def JFloat.isInteger : JFloat → Bool
  | .finite m e => if 0 ≤ e then true else m % ((2 : Int) ^ e.natAbs) == 0
  | _ => false

/-- The integer value of an integral finite float (junk on other inputs;
only ever used under `isInteger`). -/
def JFloat.intValue : JFloat → Int
  | .finite m e => if 0 ≤ e then m * 2 ^ e.toNat else m / ((2 : Int) ^ e.natAbs)
  | _ => 0

/-- Python's `f"{o}"` (i.e. `repr`) for a float with `o.is_integer()`
true: the decimal integer followed by `".0"`.  The model covers the
range `|value| < 10 ^ 16`; beyond it CPython switches to scientific
notation, which no claim exercises. -/
def pyRepr (f : JFloat) : String :=
  toString f.intValue ++ ".0"

/-- Zero-pad a natural number to six digits (the fractional part of a
`%0.6f` rendering). -/
def pad6 (n : Nat) : String :=
  let s := toString n
  String.mk (List.replicate (6 - s.length) '0') ++ s

/-- Python's `f"{o:0.6f}"`: the value rounded to six decimals, ties to
even, printed with exactly six fractional digits; the sign comes from the
value itself (so a tiny negative prints `-0.000000`).  Non-finite floats
print their IEEE names. -/
def fmt6 : JFloat → String
  | .nan => "nan"
  | .inf => "inf"
  | .neginf => "-inf"
  | .finite m e =>
    let scaled : Int :=
      if 0 ≤ e then m * 1000000 * 2 ^ e.toNat
      else halfEvenRound (m * 1000000) ((2 : Int) ^ e.natAbs)
    let a := scaled.natAbs
    (if m < 0 then "-" else "") ++ toString (a / 1000000) ++ "." ++ pad6 (a % 1000000)

/-- Python's `str.rstrip` with a single-character strip set. -/
def rstrip (c : Char) (s : String) : String :=
  String.mk ((s.data.reverse.dropWhile (· == c)).reverse)

/-- The float branch of `VSLJSONEncoder.encode` (lines 32-37): integral
floats are rendered with `f"{o}"`, every other float with
`f"{o:0.6f}".rstrip("0").rstrip(".")`. -/
def encodeFloat (f : JFloat) : String :=
  if f.isInteger then pyRepr f
  else rstrip '.' (rstrip '0' (fmt6 f))

/-- One lowercase hexadecimal digit. -/
def hexDigit (n : Nat) : Char :=
  if n < 10 then Char.ofNat (48 + n) else Char.ofNat (87 + n)

/-- The escape `json.dumps` (with `ensure_ascii=False`) applies to one
character of a string: quote, backslash and the five short control
escapes, `\u00XX` for the remaining control characters, and every other
character literally. -/
def escChar (c : Char) : String :=
  if c = '\\' then "\\\\"
  else if c = '"' then "\\\""
  else if c = '\x08' then "\\b"
  else if c = '\x09' then "\\t"
  else if c = '\x0a' then "\\n"
  else if c = '\x0c' then "\\f"
  else if c = '\x0d' then "\\r"
  else if c.toNat < 32 then
    "\\u00" ++ String.singleton (hexDigit (c.toNat / 16)) ++ String.singleton (hexDigit (c.toNat % 16))
  else String.singleton c

/-- `json.dumps` of a Python string under `ensure_ascii=False`. -/
def jsonQuote (s : String) : String :=
  "\"" ++ String.join (s.data.map escChar) ++ "\""

/-- Python's `sep.join(parts)`. -/
def joinSep (sep : String) : List String → String
  | [] => ""
  | [x] => x
  | x :: y :: rest => x ++ sep ++ joinSep sep (y :: rest)

/-- The `indent_str` property: `indentation_level * self.indent`. -/
def indentStr (cfg : Config) (lvl : Nat) : String :=
  String.join (List.replicate lvl cfg.indent)

/-- Membership in `CONTAINER_TYPES = (list, tuple, dict)`. -/
def isContainer : JVal → Bool
  | .arr _ => true
  | .obj _ => true
  | _ => false

/-- `_primitives_only` on a list or tuple: no element is a container. -/
def primitivesOnlyList (xs : List JVal) : Bool :=
  !(xs.any isContainer)

/-- `_primitives_only` on a dict: no value is a container.  (Dead code in
the source: `_encode_object` never consults it.) -/
def primitivesOnlyDict (kvs : List (PyKey × JVal)) : Bool :=
  !(kvs.any fun p => isContainer p.2)

/-- Key normalisation of line 69: `str(k) if k is not None else "null"`. -/
def keyToText : PyKey → String
  | .null => "null"
  | .str s => s
  | .int n => toString n

/-- Apply the key normalisation to every entry, keeping iteration order. -/
def stringifyKeys (kvs : List (PyKey × JVal)) : List (String × JVal) :=
  kvs.map fun p => (keyToText p.1, p.2)

/-- Insertion into a Python dict under construction: an existing key keeps
its position but its value is overwritten (last write wins); a new key is
appended. -/
def insertLW (m : List (String × JVal)) (k : String) (v : JVal) : List (String × JVal) :=
  if m.any fun p => p.1 == k then
    m.map fun p => if p.1 == k then (k, v) else p
  else m ++ [(k, v)]

/-- The dict comprehension of line 69 seen as a whole: rebuild the mapping
in iteration order with last-write-wins semantics. -/
def toDict (l : List (String × JVal)) : List (String × JVal) :=
  l.foldl (fun m p => insertLW m p.1 p.2) []

/-- Python's `<` on strings: lexicographic comparison of code points. -/
def charsLt : List Char → List Char → Bool
  | [], [] => false
  | [], _ :: _ => true
  | _ :: _, [] => false
  | a :: as, b :: bs =>
    if a.toNat < b.toNat then true
    else if b.toNat < a.toNat then false
    else charsLt as bs

/-- Python string comparison used by `sorted(o.items(), key=lambda x: x[0])`. -/
def strLt (a b : String) : Bool := charsLt a.data b.data

/-- Insert an entry into a key-sorted list, after any entry whose key is
not greater (so the insertion is stable, as Python's `sorted` is). -/
def ordInsert (p : String × JVal) : List (String × JVal) → List (String × JVal)
  | [] => [p]
  | q :: rest => if strLt p.1 q.1 then p :: q :: rest else q :: ordInsert p rest

/-- `sorted(items, key=lambda x: x[0])`: a stable sort by key.  (Keys are
unique after `toDict`, so any correct sort gives Python's result.) -/
def sortByKey : List (String × JVal) → List (String × JVal)
  | [] => []
  | p :: rest => ordInsert p (sortByKey rest)

/-- Lines 69-72 of `_encode_object`: stringify the keys into a fresh dict,
then sort the entries by key when `sort_keys` is set. -/
def prepEntries (sortKeys : Bool) (kvs : List (PyKey × JVal)) : List (String × JVal) :=
  let d := toDict (stringifyKeys kvs)
  if sortKeys then sortByKey d else d

/-- Result of encoding one value: the produced text (or the propagated
exception) together with the final `indentation_level` of the encoder
object. -/
abbrev ResS := Except EncErr String × Nat

/-- Result of an encoding loop over several children. -/
abbrev ResL := Except EncErr (List String) × Nat

mutual

/-- `VSLJSONEncoder.encode` (lines 30-52).  `lvl` is the current
`indentation_level`.  The fuel bounds the number of encoding steps (its
exhaustion plays the role of Python's `RecursionError`); every call
decreases it, so the recursion is structural, and every theorem below is
either fuel-generic or conditioned on a produced result. -/
def encodeF (cfg : Config) : Nat → Nat → JVal → ResS
  | 0, lvl, _ => (.error .outOfFuel, lvl)
  | fuel + 1, lvl, v =>
    match v with
    | .float f => (.ok (encodeFloat f), lvl)
    | .arr xs => encodeListF cfg fuel lvl xs
    | .obj kvs => encodeObjF cfg fuel lvl kvs
    | .null => (.ok "null", lvl)
    | .bool b => (.ok (if b then "true" else "false"), lvl)
    | .int n => (.ok (toString n), lvl)
    | .str s => (.ok (jsonQuote s), lvl)
    | .unsupported _ => (.error .unsupportedType, lvl)
termination_by structural fuel lvl v => fuel

/-- `VSLJSONEncoder._encode_list` (lines 54-62): try the inline rendering
when all elements are primitive and there are at most `MAX_ITEMS` of
them; accept it when `len(data) + indentation_level * 2 < MAX_WIDTH`
(note the hard-coded `2`), otherwise render expanded. -/
def encodeListF (cfg : Config) : Nat → Nat → List JVal → ResS
  | 0, lvl, _ => (.error .outOfFuel, lvl)
  | fuel + 1, lvl, xs =>
    if primitivesOnlyList xs && decide (xs.length ≤ 10) then
      match seqEncodeF cfg fuel lvl xs with
      | (.error e, l2) => (.error e, l2)
      | (.ok parts, l2) =>
        let data := "[" ++ joinSep ", " parts ++ "]"
        if data.length + l2 * 2 < 79 then (.ok data, l2)
        else expandArrF cfg fuel l2 xs
    else expandArrF cfg fuel lvl xs
termination_by structural fuel lvl xs => fuel

/-- The generator `", ".join(self.encode(el) for el in o)` of the inline
attempt: encode the elements left to right at the current level; an
exception aborts the loop, leaving whatever level the raising call left. -/
def seqEncodeF (cfg : Config) : Nat → Nat → List JVal → ResL
  | 0, lvl, _ => (.error .outOfFuel, lvl)
  | _ + 1, lvl, [] => (.ok [], lvl)
  | fuel + 1, lvl, x :: xs =>
    match encodeF cfg fuel lvl x with
    | (.error e, l2) => (.error e, l2)
    | (.ok s, l2) =>
      match seqEncodeF cfg fuel l2 xs with
      | (.error e, l3) => (.error e, l3)
      | (.ok rest, l3) => (.ok (s :: rest), l3)
termination_by structural fuel lvl xs => fuel

/-- Lines 59-62 of `_encode_list`: increment the level, render one child
per line prefixed by `indent_str`, decrement, close with
`indent_str + "]"`.  The decrement is skipped when a child raises, as in
the source (no try/finally). -/
def expandArrF (cfg : Config) : Nat → Nat → List JVal → ResS
  | 0, lvl, _ => (.error .outOfFuel, lvl)
  | fuel + 1, lvl, xs =>
    match linesEncodeF cfg fuel (lvl + 1) xs with
    | (.error e, l2) => (.error e, l2)
    | (.ok lines, l2) =>
      let l3 := l2 - 1
      (.ok ("[\n" ++ joinSep ",\n" lines ++ "\n" ++ indentStr cfg l3 ++ "]"), l3)
termination_by structural fuel lvl xs => fuel

/-- The comprehension `[self.indent_str + self.encode(el) for el in o]`:
each iteration reads `indent_str` at the level current at that moment. -/
def linesEncodeF (cfg : Config) : Nat → Nat → List JVal → ResL
  | 0, lvl, _ => (.error .outOfFuel, lvl)
  | _ + 1, lvl, [] => (.ok [], lvl)
  | fuel + 1, lvl, x :: xs =>
    let pre := indentStr cfg lvl
    match encodeF cfg fuel lvl x with
    | (.error e, l2) => (.error e, l2)
    | (.ok s, l2) =>
      match linesEncodeF cfg fuel l2 xs with
      | (.error e, l3) => (.error e, l3)
      | (.ok lines, l3) => (.ok ((pre ++ s) :: lines), l3)
termination_by structural fuel lvl xs => fuel

/-- `VSLJSONEncoder._encode_object` (lines 64-81): an empty dict renders
as a bare pair of braces; otherwise the keys are normalised and possibly
sorted (lines 68-72) and the entries are always rendered expanded. -/
def encodeObjF (cfg : Config) : Nat → Nat → List (PyKey × JVal) → ResS
  | 0, lvl, _ => (.error .outOfFuel, lvl)
  | fuel + 1, lvl, kvs =>
    if kvs.isEmpty then (.ok "\x7b\x7d", lvl)
    else expandObjF cfg fuel lvl (prepEntries cfg.sortKeys kvs)
termination_by structural fuel lvl kvs => fuel

/-- Lines 74-81 of `_encode_object`: increment, render the entry lines,
decrement, close.  As for arrays, an exception skips the decrement. -/
def expandObjF (cfg : Config) : Nat → Nat → List (String × JVal) → ResS
  | 0, lvl, _ => (.error .outOfFuel, lvl)
  | fuel + 1, lvl, entries =>
    match kvLinesF cfg fuel (lvl + 1) entries with
    | (.error e, l2) => (.error e, l2)
    | (.ok lines, l2) =>
      let l3 := l2 - 1
      (.ok ("\x7b\n" ++ joinSep ",\n" lines ++ "\n" ++ indentStr cfg l3 ++ "\x7d"), l3)
termination_by structural fuel lvl entries => fuel

/-- The entry comprehension of lines 75-78: each line is
`indent_str + json.dumps(k) + ": " + self.encode(v)`. -/
def kvLinesF (cfg : Config) : Nat → Nat → List (String × JVal) → ResL
  | 0, lvl, _ => (.error .outOfFuel, lvl)
  | _ + 1, lvl, [] => (.ok [], lvl)
  | fuel + 1, lvl, (k, v) :: rest =>
    let pre := indentStr cfg lvl
    match encodeF cfg fuel lvl v with
    | (.error e, l2) => (.error e, l2)
    | (.ok s, l2) =>
      match kvLinesF cfg fuel l2 rest with
      | (.error e, l3) => (.error e, l3)
      | (.ok lines, l3) => (.ok ((pre ++ jsonQuote k ++ ": " ++ s) :: lines), l3)
termination_by structural fuel lvl kvs => fuel

end

/-- `VSLJSONEncoder.iterencode` (lines 83-85): it simply returns
`self.encode(o)`. -/
def iterencodeF (cfg : Config) (fuel lvl : Nat) (v : JVal) : ResS :=
  encodeF cfg fuel lvl v

/-- The module-level `dumps` (lines 108-115): a fresh encoder (level 0)
with the module's fixed configuration.  The step budget of 1000 echoes
Python's default recursion limit and is ample for every value considered
here. -/
def dumps (v : JVal) : Except EncErr String :=
  (encodeF defaultCfg 1000 0 v).1

/-- The module-level `dump` (lines 118-122) against an explicit model of
the destination file: the text is computed by `dumps` first, and only
then is the file opened (truncating it) and written in one shot.  The
file state is `none` when no file exists, `some contents` otherwise. -/
def dump (v : JVal) (file : Option String) : Except EncErr Unit × Option String :=
  match dumps v with
  | .error e => (.error e, file)
  | .ok s => (.ok (), some s)

/-- First-match lookup in an entry list (Python dict indexing, given that
keys in a built dict are unique). -/
def lookupKey (k : String) : List (String × JVal) → Option JVal
  | [] => none
  | p :: rest => if p.1 = k then some p.2 else lookupKey k rest

/-- A four-space-indent configuration, used to separate the claimed width
formula from the implemented one. -/
def cfg4 : Config := { indent := "    ", sortKeys := true }

/-- Ascending key order: no later entry's key compares below an earlier
entry's key. -/
def KeyAsc (p q : String × JVal) : Prop := strLt q.1 p.1 = false

mutual

/-- Two values have the same shape and the same scalar content, except
that corresponding floats are merely required to have the same rendered
text.  The encoder cannot distinguish two such values. -/
inductive SimEq : JVal → JVal → Prop where
  | null : SimEq .null .null
  | bool (b : Bool) : SimEq (.bool b) (.bool b)
  | int (n : Int) : SimEq (.int n) (.int n)
  | str (s : String) : SimEq (.str s) (.str s)
  | float (f g : JFloat) : encodeFloat f = encodeFloat g → SimEq (.float f) (.float g)
  | unsupported (t : Nat) : SimEq (.unsupported t) (.unsupported t)
  | arr (xs ys : List JVal) : SimEqL xs ys → SimEq (.arr xs) (.arr ys)
  | obj (ps qs : List (PyKey × JVal)) : SimEqO ps qs → SimEq (.obj ps) (.obj qs)

/-- Pointwise `SimEq` on element lists. -/
inductive SimEqL : List JVal → List JVal → Prop where
  | nil : SimEqL [] []
  | cons (x y : JVal) (xs ys : List JVal) :
      SimEq x y → SimEqL xs ys → SimEqL (x :: xs) (y :: ys)

/-- Pointwise `SimEq` on dict entry lists: equal keys, related values. -/
inductive SimEqO : List (PyKey × JVal) → List (PyKey × JVal) → Prop where
  | nil : SimEqO [] []
  | cons (k : PyKey) (v w : JVal) (ps qs : List (PyKey × JVal)) :
      SimEq v w → SimEqO ps qs → SimEqO ((k, v) :: ps) ((k, w) :: qs)

end

/-- Pointwise `SimEq` on stringified entry lists. -/
inductive SimEqE : List (String × JVal) → List (String × JVal) → Prop where
  | nil : SimEqE [] []
  | cons (k : String) (v w : JVal) (ps qs : List (String × JVal)) :
      SimEq v w → SimEqE ps qs → SimEqE ((k, v) :: ps) ((k, w) :: qs)

mutual

/-- A JSON value tree in the sense of the spec's data model: no NaN or
Infinity float anywhere, no non-JSON object, and only string (or the
null-sentinel) keys would be allowed — for simplicity, keys are left
unrestricted since they do not produce floats. -/
inductive NanFree : JVal → Prop where
  | null : NanFree .null
  | bool (b : Bool) : NanFree (.bool b)
  | int (n : Int) : NanFree (.int n)
  | str (s : String) : NanFree (.str s)
  | float (m e : Int) : NanFree (.float (.finite m e))
  | arr (xs : List JVal) : NanFreeL xs → NanFree (.arr xs)
  | obj (kvs : List (PyKey × JVal)) : NanFreeO kvs → NanFree (.obj kvs)

/-- `NanFree` on element lists. -/
inductive NanFreeL : List JVal → Prop where
  | nil : NanFreeL []
  | cons (x : JVal) (xs : List JVal) : NanFree x → NanFreeL xs → NanFreeL (x :: xs)

/-- `NanFree` on dict entry lists. -/
inductive NanFreeO : List (PyKey × JVal) → Prop where
  | nil : NanFreeO []
  | cons (k : PyKey) (v : JVal) (kvs : List (PyKey × JVal)) :
      NanFree v → NanFreeO kvs → NanFreeO ((k, v) :: kvs)

end

example : jsonQuote "ab" = "\"ab\"" := by decide
example : encodeFloat (.finite 3 0) = "3.0" := by decide
example : encodeFloat .nan = "nan" := by decide
example : encodeFloat (.finite 1 (-24)) = "0" := by decide
example : encodeFloat (.finite 1 (-3)) = "0.125" := by decide
example : encodeFloat (.finite 1 (-1)) = "0.5" := by decide
example : encodeFloat (.finite (-3) (-1)) = "-1.5" := by decide

example : dumps (.float .nan) = .ok "nan" := rfl
example : dumps (.int 3) = .ok "3" := rfl
example : dumps (.arr [.int 1, .int 2]) = .ok "[1, 2]" := rfl
example : dumps (.arr [.arr [.int 1, .int 2], .arr [.int 3, .int 4]]) =
    .ok "[\n  [1, 2],\n  [3, 4]\n]" := rfl
example : dumps (.obj [(.str "b", .int 1), (.str "a", .int 2)]) =
    .ok "\x7b\n  \"a\": 2,\n  \"b\": 1\n\x7d" := rfl
example : dumps (.obj []) = .ok "\x7b\x7d" := rfl
example : (encodeF defaultCfg 50 0 (.arr [.arr [.unsupported 0]])) =
    (.error .unsupportedType, 1) := rfl

/-- On every successful path, each encoding function returns the
`indentation_level` it was called with: the increments and decrements of
`_encode_list` and `_encode_object` balance whenever no exception
escapes.  Proved for all eight functions simultaneously by induction on
the fuel. -/
lemma restoreAll : ∀ fuel : Nat,
    (∀ cfg lvl v s l2, encodeF cfg fuel lvl v = (.ok s, l2) → l2 = lvl) ∧
    (∀ cfg lvl xs s l2, encodeListF cfg fuel lvl xs = (.ok s, l2) → l2 = lvl) ∧
    (∀ cfg lvl xs ss l2, seqEncodeF cfg fuel lvl xs = (.ok ss, l2) → l2 = lvl) ∧
    (∀ cfg lvl xs s l2, expandArrF cfg fuel lvl xs = (.ok s, l2) → l2 = lvl) ∧
    (∀ cfg lvl xs ss l2, linesEncodeF cfg fuel lvl xs = (.ok ss, l2) → l2 = lvl) ∧
    (∀ cfg lvl kvs s l2, encodeObjF cfg fuel lvl kvs = (.ok s, l2) → l2 = lvl) ∧
    (∀ cfg lvl es s l2, expandObjF cfg fuel lvl es = (.ok s, l2) → l2 = lvl) ∧
    (∀ cfg lvl es ss l2, kvLinesF cfg fuel lvl es = (.ok ss, l2) → l2 = lvl) := by
  intro fuel
  induction fuel with
  | zero =>
    refine ⟨?_, ?_, ?_, ?_, ?_, ?_, ?_, ?_⟩ <;>
      (intro cfg lvl a s l2 h;
       simp [encodeF, encodeListF, seqEncodeF, expandArrF, linesEncodeF,
             encodeObjF, expandObjF, kvLinesF] at h)
  | succ fuel ih =>
    obtain ⟨ihE, ihL, ihSeq, ihExp, ihLines, ihO, ihEO, ihKV⟩ := ih
    have hSeq : ∀ cfg lvl xs ss l2, seqEncodeF cfg (fuel + 1) lvl xs = (.ok ss, l2) → l2 = lvl := by
      intro cfg lvl xs ss l2 h
      cases xs with
      | nil =>
        simp only [seqEncodeF, Prod.mk.injEq, Except.ok.injEq] at h
        exact h.2.symm
      | cons x xs =>
        simp only [seqEncodeF] at h
        rcases h1 : encodeF cfg fuel lvl x with ⟨r1, m1⟩
        rw [h1] at h
        cases r1 with
        | error e => simp at h
        | ok s1 =>
          simp only at h
          rcases h2 : seqEncodeF cfg fuel m1 xs with ⟨r2, m2⟩
          rw [h2] at h
          cases r2 with
          | error e => simp at h
          | ok rest =>
            simp only [Prod.mk.injEq, Except.ok.injEq] at h
            have e1 := ihE cfg lvl x s1 m1 h1
            have e2 := ihSeq cfg m1 xs rest m2 h2
            omega
    have hLines : ∀ cfg lvl xs ss l2, linesEncodeF cfg (fuel + 1) lvl xs = (.ok ss, l2) → l2 = lvl := by
      intro cfg lvl xs ss l2 h
      cases xs with
      | nil =>
        simp only [linesEncodeF, Prod.mk.injEq, Except.ok.injEq] at h
        exact h.2.symm
      | cons x xs =>
        simp only [linesEncodeF] at h
        rcases h1 : encodeF cfg fuel lvl x with ⟨r1, m1⟩
        rw [h1] at h
        cases r1 with
        | error e => simp at h
        | ok s1 =>
          simp only at h
          rcases h2 : linesEncodeF cfg fuel m1 xs with ⟨r2, m2⟩
          rw [h2] at h
          cases r2 with
          | error e => simp at h
          | ok rest =>
            simp only [Prod.mk.injEq, Except.ok.injEq] at h
            have e1 := ihE cfg lvl x s1 m1 h1
            have e2 := ihLines cfg m1 xs rest m2 h2
            omega
    have hKV : ∀ cfg lvl es ss l2, kvLinesF cfg (fuel + 1) lvl es = (.ok ss, l2) → l2 = lvl := by
      intro cfg lvl es ss l2 h
      cases es with
      | nil =>
        simp only [kvLinesF, Prod.mk.injEq, Except.ok.injEq] at h
        exact h.2.symm
      | cons p rest =>
        rcases p with ⟨k, v⟩
        simp only [kvLinesF] at h
        rcases h1 : encodeF cfg fuel lvl v with ⟨r1, m1⟩
        rw [h1] at h
        cases r1 with
        | error e => simp at h
        | ok s1 =>
          simp only at h
          rcases h2 : kvLinesF cfg fuel m1 rest with ⟨r2, m2⟩
          rw [h2] at h
          cases r2 with
          | error e => simp at h
          | ok lines =>
            simp only [Prod.mk.injEq, Except.ok.injEq] at h
            have e1 := ihE cfg lvl v s1 m1 h1
            have e2 := ihKV cfg m1 rest lines m2 h2
            omega
    have hExp : ∀ cfg lvl xs s l2, expandArrF cfg (fuel + 1) lvl xs = (.ok s, l2) → l2 = lvl := by
      intro cfg lvl xs s l2 h
      simp only [expandArrF] at h
      rcases h1 : linesEncodeF cfg fuel (lvl + 1) xs with ⟨r1, m1⟩
      rw [h1] at h
      cases r1 with
      | error e => simp at h
      | ok lines =>
        simp only [Prod.mk.injEq, Except.ok.injEq] at h
        have e1 := ihLines cfg (lvl + 1) xs lines m1 h1
        omega
    have hEO : ∀ cfg lvl es s l2, expandObjF cfg (fuel + 1) lvl es = (.ok s, l2) → l2 = lvl := by
      intro cfg lvl es s l2 h
      simp only [expandObjF] at h
      rcases h1 : kvLinesF cfg fuel (lvl + 1) es with ⟨r1, m1⟩
      rw [h1] at h
      cases r1 with
      | error e => simp at h
      | ok lines =>
        simp only [Prod.mk.injEq, Except.ok.injEq] at h
        have e1 := ihKV cfg (lvl + 1) es lines m1 h1
        omega
    have hList : ∀ cfg lvl xs s l2, encodeListF cfg (fuel + 1) lvl xs = (.ok s, l2) → l2 = lvl := by
      intro cfg lvl xs s l2 h
      simp only [encodeListF] at h
      by_cases hc : (primitivesOnlyList xs && decide (xs.length ≤ 10)) = true
      · rw [if_pos hc] at h
        rcases h1 : seqEncodeF cfg fuel lvl xs with ⟨r1, m1⟩
        rw [h1] at h
        cases r1 with
        | error e => simp at h
        | ok parts =>
          simp only at h
          by_cases hw : ("[" ++ joinSep ", " parts ++ "]").length + m1 * 2 < 79
          · rw [if_pos hw] at h
            simp only [Prod.mk.injEq, Except.ok.injEq] at h
            have e1 := ihSeq cfg lvl xs parts m1 h1
            omega
          · rw [if_neg hw] at h
            have e1 := ihSeq cfg lvl xs parts m1 h1
            have e2 := ihExp cfg m1 xs s l2 h
            omega
      · rw [if_neg hc] at h
        exact ihExp cfg lvl xs s l2 h
    have hObj : ∀ cfg lvl kvs s l2, encodeObjF cfg (fuel + 1) lvl kvs = (.ok s, l2) → l2 = lvl := by
      intro cfg lvl kvs s l2 h
      simp only [encodeObjF] at h
      by_cases hc : kvs.isEmpty = true
      · rw [if_pos hc] at h
        simp only [Prod.mk.injEq, Except.ok.injEq] at h
        exact h.2.symm
      · rw [if_neg hc] at h
        exact ihEO cfg lvl (prepEntries cfg.sortKeys kvs) s l2 h
    have hE : ∀ cfg lvl v s l2, encodeF cfg (fuel + 1) lvl v = (.ok s, l2) → l2 = lvl := by
      intro cfg lvl v s l2 h
      cases v with
      | arr xs =>
        simp only [encodeF] at h
        exact ihL cfg lvl xs s l2 h
      | obj kvs =>
        simp only [encodeF] at h
        exact ihO cfg lvl kvs s l2 h
      | unsupported t => simp [encodeF] at h
      | _ =>
        simp only [encodeF, Prod.mk.injEq, Except.ok.injEq] at h
        omega
    exact ⟨hE, hList, hSeq, hExp, hLines, hObj, hEO, hKV⟩

/-- Related values are containers together. -/
lemma simEq_isContainer {v w : JVal} (h : SimEq v w) : isContainer v = isContainer w := by
  cases h <;> rfl

/-- Related element lists have equal lengths. -/
lemma simEqL_length {xs ys : List JVal} (h : SimEqL xs ys) : xs.length = ys.length := by
  induction xs generalizing ys with
  | nil => cases h; rfl
  | cons x xs ih =>
    cases h with
    | cons _ y _ ys hxy hxs => simp [ih hxs]

/-- Related element lists agree on `_primitives_only`. -/
lemma simEqL_primitivesOnly {xs ys : List JVal} (h : SimEqL xs ys) :
    primitivesOnlyList xs = primitivesOnlyList ys := by
  induction xs generalizing ys with
  | nil => cases h; rfl
  | cons x xs ih =>
    cases h with
    | cons _ y _ ys hxy hxs =>
      simp only [primitivesOnlyList, List.any_cons]
      rw [simEq_isContainer hxy]
      have := ih hxs
      simp only [primitivesOnlyList] at this
      cases hac : isContainer y <;> simp_all

/-- Related entry lists have pointwise equal keys. -/
lemma simEqE_keys {ps qs : List (String × JVal)} (h : SimEqE ps qs) :
    ps.map Prod.fst = qs.map Prod.fst := by
  induction h with
  | nil => rfl
  | cons k v w ps qs hvw hpq ih => simp [ih]

/-- `SimEqE` is preserved by list concatenation. -/
lemma simEqE_append {ps qs rs ts : List (String × JVal)}
    (h1 : SimEqE ps qs) (h2 : SimEqE rs ts) : SimEqE (ps ++ rs) (qs ++ ts) := by
  induction h1 with
  | nil => exact h2
  | cons k v w ps qs hvw hpq ih => exact .cons k v w _ _ hvw ih

/-- `SimEqE` is preserved by a last-write-wins insertion with related
values under the same key. -/
lemma simEqE_insertLW {ps qs : List (String × JVal)} (h : SimEqE ps qs)
    {k : String} {v w : JVal} (hvw : SimEq v w) :
    SimEqE (insertLW ps k v) (insertLW qs k w) := by
  have hany : (ps.any fun p => p.1 == k) = (qs.any fun p => p.1 == k) := by
    induction h with
    | nil => rfl
    | cons k2 v2 w2 ps qs hvw2 hpq ih => simp only [List.any_cons, ih]
  unfold insertLW
  rw [hany]
  by_cases hc : (qs.any fun p => p.1 == k) = true
  · rw [if_pos hc, if_pos hc]
    clear hany hc
    induction h with
    | nil => exact .nil
    | cons k2 v2 w2 ps qs hvw2 hpq ih =>
      simp only [List.map_cons]
      by_cases hk : (k2 == k) = true
      · rw [if_pos hk, if_pos hk]
        exact .cons k v w _ _ hvw ih
      · rw [if_neg hk, if_neg hk]
        exact .cons k2 v2 w2 _ _ hvw2 ih
  · rw [if_neg hc, if_neg hc]
    exact simEqE_append h (.cons k v w [] [] hvw .nil)

/-- `SimEqE` is preserved by the dict-rebuilding fold. -/
lemma simEqE_toDict {ps qs : List (String × JVal)} (h : SimEqE ps qs) :
    SimEqE (toDict ps) (toDict qs) := by
  suffices hgen : ∀ a b, SimEqE a b →
      SimEqE (ps.foldl (fun m p => insertLW m p.1 p.2) a)
        (qs.foldl (fun m p => insertLW m p.1 p.2) b) from hgen [] [] .nil
  induction h with
  | nil => intro a b hab; exact hab
  | cons k v w ps qs hvw hpq ih =>
    intro a b hab
    exact ih _ _ (simEqE_insertLW hab hvw)

/-- `SimEqE` is preserved by the stable sorted-insert. -/
lemma simEqE_ordInsert {ps qs : List (String × JVal)} (h : SimEqE ps qs)
    {k : String} {v w : JVal} (hvw : SimEq v w) :
    SimEqE (ordInsert (k, v) ps) (ordInsert (k, w) qs) := by
  induction h with
  | nil => exact .cons k v w [] [] hvw .nil
  | cons k2 v2 w2 ps qs hvw2 hpq ih =>
    simp only [ordInsert]
    by_cases hk : strLt k k2 = true
    · rw [if_pos hk, if_pos hk]
      exact .cons k v w _ _ hvw (.cons k2 v2 w2 _ _ hvw2 hpq)
    · rw [if_neg hk, if_neg hk]
      exact .cons k2 v2 w2 _ _ hvw2 ih

/-- `SimEqE` is preserved by the key sort. -/
lemma simEqE_sortByKey {ps qs : List (String × JVal)} (h : SimEqE ps qs) :
    SimEqE (sortByKey ps) (sortByKey qs) := by
  induction h with
  | nil => exact .nil
  | cons k v w ps qs hvw hpq ih => exact simEqE_ordInsert ih hvw

/-- Key stringification turns related dicts into related entry lists. -/
lemma simEqO_stringify {ps qs : List (PyKey × JVal)} (h : SimEqO ps qs) :
    SimEqE (stringifyKeys ps) (stringifyKeys qs) := by
  induction ps generalizing qs with
  | nil => cases h; exact .nil
  | cons p ps ih =>
    cases h with
    | cons k v w _ qs hvw hpq => exact .cons (keyToText k) v w _ _ hvw (ih hpq)

/-- The whole key-normalisation pipeline preserves `SimEqE`. -/
lemma simEqO_prepEntries {ps qs : List (PyKey × JVal)} (h : SimEqO ps qs) (b : Bool) :
    SimEqE (prepEntries b ps) (prepEntries b qs) := by
  unfold prepEntries
  cases b with
  | false => exact simEqE_toDict (simEqO_stringify h)
  | true => exact simEqE_sortByKey (simEqE_toDict (simEqO_stringify h))

/-- Related dicts are empty together. -/
lemma simEqO_isEmpty {ps qs : List (PyKey × JVal)} (h : SimEqO ps qs) :
    ps.isEmpty = qs.isEmpty := by
  cases h <;> rfl

/-- The encoder cannot distinguish `SimEq`-related inputs: every encoding
function maps related inputs to literally equal results (text, error and
final level alike).  Proved for all eight functions simultaneously by
induction on the fuel. -/
lemma congrAll : ∀ fuel : Nat,
    (∀ cfg lvl v w, SimEq v w → encodeF cfg fuel lvl v = encodeF cfg fuel lvl w) ∧
    (∀ cfg lvl xs ys, SimEqL xs ys → encodeListF cfg fuel lvl xs = encodeListF cfg fuel lvl ys) ∧
    (∀ cfg lvl xs ys, SimEqL xs ys → seqEncodeF cfg fuel lvl xs = seqEncodeF cfg fuel lvl ys) ∧
    (∀ cfg lvl xs ys, SimEqL xs ys → expandArrF cfg fuel lvl xs = expandArrF cfg fuel lvl ys) ∧
    (∀ cfg lvl xs ys, SimEqL xs ys → linesEncodeF cfg fuel lvl xs = linesEncodeF cfg fuel lvl ys) ∧
    (∀ cfg lvl ps qs, SimEqO ps qs → encodeObjF cfg fuel lvl ps = encodeObjF cfg fuel lvl qs) ∧
    (∀ cfg lvl es fs, SimEqE es fs → expandObjF cfg fuel lvl es = expandObjF cfg fuel lvl fs) ∧
    (∀ cfg lvl es fs, SimEqE es fs → kvLinesF cfg fuel lvl es = kvLinesF cfg fuel lvl fs) := by
  intro fuel
  induction fuel with
  | zero =>
    refine ⟨?_, ?_, ?_, ?_, ?_, ?_, ?_, ?_⟩ <;> (intro cfg lvl a b h; rfl)
  | succ fuel ih =>
    obtain ⟨ihE, ihL, ihSeq, ihExp, ihLines, ihO, ihEO, ihKV⟩ := ih
    have hE : ∀ cfg lvl v w, SimEq v w →
        encodeF cfg (fuel + 1) lvl v = encodeF cfg (fuel + 1) lvl w := by
      intro cfg lvl v w h
      cases h with
      | float f g hfg => simp only [encodeF, hfg]
      | arr xs ys hxy => simp only [encodeF]; exact ihL cfg lvl xs ys hxy
      | obj ps qs hpq => simp only [encodeF]; exact ihO cfg lvl ps qs hpq
      | _ => rfl
    have hSeq : ∀ cfg lvl xs ys, SimEqL xs ys →
        seqEncodeF cfg (fuel + 1) lvl xs = seqEncodeF cfg (fuel + 1) lvl ys := by
      intro cfg lvl xs ys h
      cases h with
      | nil => rfl
      | cons x y xs ys hxy hxs =>
        simp only [seqEncodeF]
        rw [ihE cfg lvl x y hxy]
        rcases encodeF cfg fuel lvl y with ⟨r1, m1⟩
        cases r1 with
        | error e => rfl
        | ok s1 =>
          simp only
          rw [ihSeq cfg m1 xs ys hxs]
    have hLines : ∀ cfg lvl xs ys, SimEqL xs ys →
        linesEncodeF cfg (fuel + 1) lvl xs = linesEncodeF cfg (fuel + 1) lvl ys := by
      intro cfg lvl xs ys h
      cases h with
      | nil => rfl
      | cons x y xs ys hxy hxs =>
        simp only [linesEncodeF]
        rw [ihE cfg lvl x y hxy]
        rcases encodeF cfg fuel lvl y with ⟨r1, m1⟩
        cases r1 with
        | error e => rfl
        | ok s1 =>
          simp only
          rw [ihLines cfg m1 xs ys hxs]
    have hKV : ∀ cfg lvl es fs, SimEqE es fs →
        kvLinesF cfg (fuel + 1) lvl es = kvLinesF cfg (fuel + 1) lvl fs := by
      intro cfg lvl es fs h
      cases h with
      | nil => rfl
      | cons k v w ps qs hvw hpq =>
        simp only [kvLinesF]
        rw [ihE cfg lvl v w hvw]
        rcases encodeF cfg fuel lvl w with ⟨r1, m1⟩
        cases r1 with
        | error e => rfl
        | ok s1 =>
          simp only
          rw [ihKV cfg m1 ps qs hpq]
    have hExp : ∀ cfg lvl xs ys, SimEqL xs ys →
        expandArrF cfg (fuel + 1) lvl xs = expandArrF cfg (fuel + 1) lvl ys := by
      intro cfg lvl xs ys h
      simp only [expandArrF]
      rw [ihLines cfg (lvl + 1) xs ys h]
    have hEO : ∀ cfg lvl es fs, SimEqE es fs →
        expandObjF cfg (fuel + 1) lvl es = expandObjF cfg (fuel + 1) lvl fs := by
      intro cfg lvl es fs h
      simp only [expandObjF]
      rw [ihKV cfg (lvl + 1) es fs h]
    have hList : ∀ cfg lvl xs ys, SimEqL xs ys →
        encodeListF cfg (fuel + 1) lvl xs = encodeListF cfg (fuel + 1) lvl ys := by
      intro cfg lvl xs ys h
      simp only [encodeListF]
      rw [simEqL_primitivesOnly h, simEqL_length h]
      by_cases hc : (primitivesOnlyList ys && decide (ys.length ≤ 10)) = true
      · rw [if_pos hc, if_pos hc]
        rw [ihSeq cfg lvl xs ys h]
        rcases seqEncodeF cfg fuel lvl ys with ⟨r1, m1⟩
        cases r1 with
        | error e => rfl
        | ok parts =>
          simp only
          by_cases hw : ("[" ++ joinSep ", " parts ++ "]").length + m1 * 2 < 79
          · rw [if_pos hw, if_pos hw]
          · rw [if_neg hw, if_neg hw]
            exact ihExp cfg m1 xs ys h
      · rw [if_neg hc, if_neg hc]
        exact ihExp cfg lvl xs ys h
    have hObj : ∀ cfg lvl ps qs, SimEqO ps qs →
        encodeObjF cfg (fuel + 1) lvl ps = encodeObjF cfg (fuel + 1) lvl qs := by
      intro cfg lvl ps qs h
      simp only [encodeObjF]
      rw [simEqO_isEmpty h]
      by_cases hc : qs.isEmpty = true
      · rw [if_pos hc, if_pos hc]
      · rw [if_neg hc, if_neg hc]
        exact ihEO cfg lvl _ _ (simEqO_prepEntries h cfg.sortKeys)
    exact ⟨hE, hList, hSeq, hExp, hLines, hObj, hEO, hKV⟩

/-- Lookup distributes over concatenation, preferring the first list. -/
lemma lookupKey_append (k : String) (a b : List (String × JVal)) :
    lookupKey k (a ++ b) =
      (match lookupKey k a with
        | some v => some v
        | none => lookupKey k b) := by
  induction a with
  | nil => rfl
  | cons p a ih =>
    simp only [List.cons_append, lookupKey]
    by_cases hp : p.1 = k
    · rw [if_pos hp, if_pos hp]
    · rw [if_neg hp, if_neg hp]
      exact ih

/-- Replacing the entries of an absent-from-the-lookup key does not change
a lookup. -/
lemma lookupKey_mapReplace_ne {k k2 : String} (hne : k ≠ k2) (v : JVal)
    (m : List (String × JVal)) :
    lookupKey k2 (m.map fun p => if p.1 == k then (k, v) else p) = lookupKey k2 m := by
  induction m with
  | nil => rfl
  | cons p m ih =>
    by_cases hp : (p.1 == k) = true
    · have hpk : p.1 = k := by simpa using hp
      have h2 : ¬ p.1 = k2 := by rw [hpk]; exact hne
      simp only [List.map_cons, if_pos hp, lookupKey]
      rw [if_neg hne, if_neg h2]
      exact ih
    · simp only [List.map_cons, if_neg hp, lookupKey]
      by_cases hp2 : p.1 = k2
      · rw [if_pos hp2, if_pos hp2]
      · rw [if_neg hp2, if_neg hp2]
        exact ih

/-- If some entry has the key, replacing makes the lookup find the new
value. -/
lemma lookupKey_mapReplace_eq {k : String} (v : JVal) {m : List (String × JVal)}
    (hm : (m.any fun p => p.1 == k) = true) :
    lookupKey k (m.map fun p => if p.1 == k then (k, v) else p) = some v := by
  induction m with
  | nil => simp at hm
  | cons p m ih =>
    simp only [List.any_cons, Bool.or_eq_true] at hm
    simp only [List.map_cons]
    by_cases hp : (p.1 == k) = true
    · rw [if_pos hp]
      simp [lookupKey]
    · rw [if_neg hp]
      simp only [lookupKey]
      have hpk : ¬ p.1 = k := by simpa using hp
      rw [if_neg hpk]
      exact ih (hm.resolve_left hp)

/-- If no entry has the key, the lookup misses. -/
lemma lookupKey_eq_none {k : String} {m : List (String × JVal)}
    (hm : (m.any fun p => p.1 == k) = false) :
    lookupKey k m = none := by
  induction m with
  | nil => rfl
  | cons p m ih =>
    simp only [List.any_cons, Bool.or_eq_false_iff] at hm
    simp only [lookupKey]
    rw [if_neg (by simpa using hm.1)]
    exact ih hm.2

/-- Lookup after a last-write-wins insertion: the inserted key now maps to
the inserted value, all other keys are untouched. -/
lemma lookupKey_insertLW (m : List (String × JVal)) (k : String) (v : JVal) (k2 : String) :
    lookupKey k2 (insertLW m k v) = if k = k2 then some v else lookupKey k2 m := by
  unfold insertLW
  by_cases hc : (m.any fun p => p.1 == k) = true
  · rw [if_pos hc]
    by_cases hk : k = k2
    · rw [if_pos hk]
      subst hk
      exact lookupKey_mapReplace_eq v hc
    · rw [if_neg hk]
      exact lookupKey_mapReplace_ne hk v m
  · rw [if_neg hc]
    rw [lookupKey_append]
    have hcf : (m.any fun p => p.1 == k) = false := by
      revert hc
      cases m.any fun p => p.1 == k <;> simp
    by_cases hk : k = k2
    · subst hk
      rw [lookupKey_eq_none hcf]
      simp [lookupKey]
    · rw [if_neg hk]
      cases hm : lookupKey k2 m with
      | none => simp [lookupKey, hk]
      | some v2 => rfl

/-- Last write wins: looking a key up in the rebuilt dict is the same as
finding its last occurrence in the original iteration order. -/
lemma lookupKey_toDict (l : List (String × JVal)) (k : String) :
    lookupKey k (toDict l) = lookupKey k l.reverse := by
  unfold toDict
  suffices hgen : ∀ m, lookupKey k (l.foldl (fun m p => insertLW m p.1 p.2) m) =
      (match lookupKey k l.reverse with
        | some v => some v
        | none => lookupKey k m) by
    have := hgen []
    rw [this]
    rcases lookupKey k l.reverse with _ | v <;> simp [lookupKey]
  induction l with
  | nil => intro m; simp [lookupKey]
  | cons p l ih =>
    intro m
    simp only [List.foldl_cons, List.reverse_cons]
    rw [ih, lookupKey_append]
    rcases lookupKey k l.reverse with _ | v
    · simp only [lookupKey, lookupKey_insertLW]
      by_cases hp : p.1 = k
      · rw [if_pos hp, if_pos hp]
      · rw [if_neg hp, if_neg hp]
    · rfl

/-- The keys of a last-write-wins insertion: unchanged when the key was
present, the new key appended otherwise. -/
lemma keys_insertLW (m : List (String × JVal)) (k : String) (v : JVal) :
    (insertLW m k v).map Prod.fst =
      if (m.any fun p => p.1 == k) = true then m.map Prod.fst
      else m.map Prod.fst ++ [k] := by
  unfold insertLW
  by_cases hc : (m.any fun p => p.1 == k) = true
  · rw [if_pos hc, if_pos hc, List.map_map]
    apply List.map_congr_left
    intro p hp
    by_cases hk : (p.1 == k) = true
    · simp only [Function.comp_apply]
      rw [if_pos hk]
      simpa using (eq_of_beq hk).symm
    · simp only [Function.comp_apply]
      rw [if_neg hk]
  · rw [if_neg hc, if_neg hc]
    simp

/-- A key is present in the dict being built iff `any` sees it. -/
lemma mem_keys_iff_any (m : List (String × JVal)) (k : String) :
    k ∈ m.map Prod.fst ↔ (m.any fun p => p.1 == k) = true := by
  simp only [List.any_eq_true, List.mem_map, beq_iff_eq]

/-- The dict rebuild never produces a duplicate key. -/
lemma nodup_keys_toDict (l : List (String × JVal)) :
    ((toDict l).map Prod.fst).Nodup := by
  suffices hgen : ∀ m, (m.map Prod.fst).Nodup →
      ((l.foldl (fun m p => insertLW m p.1 p.2) m).map Prod.fst).Nodup from
    hgen [] (by simp)
  induction l with
  | nil => intro m hm; exact hm
  | cons p l ih =>
    intro m hm
    simp only [List.foldl_cons]
    apply ih
    rw [keys_insertLW]
    by_cases hc : (m.any fun q => q.1 == p.1) = true
    · rw [if_pos hc]; exact hm
    · rw [if_neg hc]
      refine List.nodup_append.mpr ⟨hm, List.nodup_singleton _, ?_⟩
      intro a ha hb
      have hap : a = p.1 := by simpa using hb
      have : p.1 ∉ m.map Prod.fst := by
        rw [mem_keys_iff_any]
        simp [hc]
      exact this (hap ▸ ha)

/-- Sorted insertion permutes a push to the front. -/
lemma perm_ordInsert (p : String × JVal) (l : List (String × JVal)) :
    List.Perm (ordInsert p l) (p :: l) := by
  induction l with
  | nil => exact List.Perm.refl _
  | cons q l ih =>
    simp only [ordInsert]
    by_cases hc : strLt p.1 q.1 = true
    · rw [if_pos hc]
    · rw [if_neg hc]
      exact (ih.cons q).trans (List.Perm.swap p q l)

/-- The key sort is a permutation. -/
lemma perm_sortByKey (l : List (String × JVal)) :
    List.Perm (sortByKey l) l := by
  induction l with
  | nil => exact List.Perm.refl _
  | cons p l ih => exact (perm_ordInsert p (sortByKey l)).trans (ih.cons p)

/-- Code-point comparison of strings is asymmetric. -/
lemma charsLt_asymm : ∀ a b : List Char, charsLt a b = true → charsLt b a = false := by
  intro a
  induction a with
  | nil =>
    intro b h
    cases b with
    | nil => simp [charsLt] at h
    | cons c cs => rfl
  | cons x xs ih =>
    intro b h
    cases b with
    | nil => simp [charsLt] at h
    | cons y ys =>
      simp only [charsLt] at h ⊢
      by_cases h1 : x.toNat < y.toNat
      · rw [if_neg (by omega : ¬ y.toNat < x.toNat), if_pos h1]
      · rw [if_neg h1] at h
        by_cases h2 : y.toNat < x.toNat
        · rw [if_pos h2] at h
          exact absurd h (by simp)
        · rw [if_neg h2] at h
          rw [if_neg h2, if_neg h1]
          exact ih ys h

/-- Code-point comparison of strings is transitive. -/
lemma charsLt_trans : ∀ a b c : List Char,
    charsLt a b = true → charsLt b c = true → charsLt a c = true := by
  intro a
  induction a with
  | nil =>
    intro b c hab hbc
    cases b with
    | nil => simp [charsLt] at hab
    | cons y ys =>
      cases c with
      | nil => simp [charsLt] at hbc
      | cons z zs => rfl
  | cons x xs ih =>
    intro b c hab hbc
    cases b with
    | nil => simp [charsLt] at hab
    | cons y ys =>
      cases c with
      | nil => simp [charsLt] at hbc
      | cons z zs =>
        simp only [charsLt] at hab hbc ⊢
        by_cases h1 : x.toNat < y.toNat <;> by_cases h2 : y.toNat < z.toNat
        · rw [if_pos (by omega)]
        · rw [if_neg h2] at hbc
          by_cases h3 : z.toNat < y.toNat
          · rw [if_pos h3] at hbc; exact absurd hbc (by simp)
          · rw [if_neg h3] at hbc
            rw [if_pos (by omega)]
        · rw [if_neg h1] at hab
          by_cases h3 : y.toNat < x.toNat
          · rw [if_pos h3] at hab; exact absurd hab (by simp)
          · rw [if_neg h3] at hab
            rw [if_pos (by omega)]
        · rw [if_neg h1] at hab
          rw [if_neg h2] at hbc
          by_cases h3 : y.toNat < x.toNat
          · rw [if_pos h3] at hab; exact absurd hab (by simp)
          · by_cases h4 : z.toNat < y.toNat
            · rw [if_pos h4] at hbc; exact absurd hbc (by simp)
            · rw [if_neg h3] at hab
              rw [if_neg h4] at hbc
              rw [if_neg (by omega), if_neg (by omega)]
              exact ih ys zs hab hbc

/-- Asymmetry, on strings. -/
lemma strLt_asymm {a b : String} (h : strLt a b = true) : strLt b a = false :=
  charsLt_asymm a.data b.data h

/-- Transitivity, on strings. -/
lemma strLt_trans {a b c : String} (hab : strLt a b = true) (hbc : strLt b c = true) :
    strLt a c = true :=
  charsLt_trans a.data b.data c.data hab hbc

/-- Sorted insertion preserves ascending key order. -/
lemma sorted_ordInsert (p : String × JVal) :
    ∀ l : List (String × JVal), l.Pairwise KeyAsc → (ordInsert p l).Pairwise KeyAsc := by
  intro l
  induction l with
  | nil =>
    intro _
    exact List.pairwise_singleton KeyAsc p
  | cons q l ih =>
    intro hql
    rcases List.pairwise_cons.mp hql with ⟨hq, hl⟩
    simp only [ordInsert]
    by_cases hlt : strLt p.1 q.1 = true
    · rw [if_pos hlt]
      refine List.pairwise_cons.mpr ⟨?_, hql⟩
      intro r hr
      rcases List.mem_cons.mp hr with hrq | hrl
      · subst hrq
        exact strLt_asymm hlt
      · cases hc : strLt r.1 p.1 with
        | false => exact hc
        | true =>
          have : strLt r.1 q.1 = true := strLt_trans hc hlt
          rw [hq r hrl] at this
          exact absurd this (by simp)
    · rw [if_neg hlt]
      refine List.pairwise_cons.mpr ⟨?_, ih hl⟩
      intro r hr
      have hr2 : r ∈ p :: l := (perm_ordInsert p l).mem_iff.mp hr
      rcases List.mem_cons.mp hr2 with hrp | hrl
      · subst hrp
        cases hx : strLt r.1 q.1 with
        | false => exact hx
        | true => exact absurd hx hlt
      · exact hq r hrl

/-- The key sort produces an ascending entry list. -/
lemma sorted_sortByKey (l : List (String × JVal)) :
    (sortByKey l).Pairwise KeyAsc := by
  induction l with
  | nil => exact List.Pairwise.nil
  | cons p l ih => exact sorted_ordInsert p (sortByKey l) ih

/-- The data list of a concatenation is the concatenation of the data
lists. -/
lemma strData_append (a b : String) : (a ++ b).data = a.data ++ b.data := by
  cases a
  cases b
  rfl

/-- C1 (code_bug evaluation): encoding NaN or an infinity under the
module's `dumps` (which passes `allow_nan=False`) does not raise at all:
`encode` intercepts every float before the `json.dumps` fallback, so its
`allow_nan` check is never reached and the (non-JSON) texts `nan`, `inf`
and `-inf` are returned. -/
theorem claim_C1 :
    dumps (.float .nan) = .ok "nan" ∧
    dumps (.float .inf) = .ok "inf" ∧
    dumps (.float .neginf) = .ok "-inf" :=
  ⟨rfl, rfl, rfl⟩

/-- C2 counterexample: the one-entry object with key `"a"` and value `1`
is inline-eligible by the claimed rule (one scalar value, well under the
item and width caps at depth 0), yet `dumps` renders it expanded over
three lines, not as the single-line form. -/
theorem claim_C2_counterexample :
    dumps (.obj [(.str "a", .int 1)]) = .ok "\x7b\n  \"a\": 1\n\x7d" ∧
    ("\x7b\n  \"a\": 1\n\x7d" : String) ≠ "\x7b\"a\": 1\x7d" :=
  ⟨rfl, by decide⟩

/-- C2 amended: objects are never rendered inline.  A successful
`_encode_object` call returns either the bare brace pair (empty dict) or
a rendering that contains a newline (it always starts with an opening
brace followed by a newline), whatever the eligibility of the object
under the array rule would have been. -/
theorem claim_C2 (cfg : Config) (fuel lvl : Nat) (kvs : List (PyKey × JVal))
    (s : String) (l2 : Nat) (h : encodeObjF cfg fuel lvl kvs = (.ok s, l2)) :
    (kvs = [] ∧ s = "\x7b\x7d") ∨ '\n' ∈ s.data := by
  cases fuel with
  | zero => simp [encodeObjF] at h
  | succ fuel =>
    simp only [encodeObjF] at h
    by_cases hc : kvs.isEmpty = true
    · rw [if_pos hc] at h
      simp only [Prod.mk.injEq, Except.ok.injEq] at h
      exact Or.inl ⟨List.isEmpty_iff.mp hc, h.1.symm⟩
    · rw [if_neg hc] at h
      cases fuel with
      | zero => simp [expandObjF] at h
      | succ fuel =>
        simp only [expandObjF] at h
        rcases h1 : kvLinesF cfg fuel (lvl + 1) (prepEntries cfg.sortKeys kvs) with ⟨r1, m1⟩
        rw [h1] at h
        cases r1 with
        | error e => simp at h
        | ok lines =>
          simp only [Prod.mk.injEq, Except.ok.injEq] at h
          refine Or.inr ?_
          rw [← h.1]
          rw [strData_append, strData_append, strData_append, strData_append]
          simp

/-- C2 witness: the amended statement applied to the counterexample's
object. -/
theorem claim_C2_witness :
    (([(PyKey.str "a", JVal.int 1)] : List (PyKey × JVal)) = [] ∧
      ("\x7b\n  \"a\": 1\n\x7d" : String) = "\x7b\x7d") ∨
    '\n' ∈ ("\x7b\n  \"a\": 1\n\x7d" : String).data :=
  claim_C2 defaultCfg 1000 0 [(.str "a", .int 1)] "\x7b\n  \"a\": 1\n\x7d" 0 rfl

/-- C3 counterexample: `format(3.0)` produces `"3.0"`, not `"3"`:
the integral-float branch returns Python's `f"{o}"`, which keeps the
trailing `.0`; the zero-stripping is applied only on the non-integral
branch. -/
theorem claim_C3_counterexample :
    dumps (.float (.finite 3 0)) = .ok "3.0" ∧ ("3.0" : String) ≠ "3" :=
  ⟨rfl, by decide⟩

/-- Encoding a bare float through the module-level `dumps`. -/
lemma dumps_float (f : JFloat) : dumps (.float f) = .ok (encodeFloat f) := rfl

/-- C3 amended: a finite float that is mathematically an integer is
rendered as its decimal integer text followed by `".0"` (the model's
`pyRepr`, faithful to CPython for values below `10 ^ 16`). -/
theorem claim_C3 (m e : Int) (h : (JFloat.finite m e).isInteger = true)
    (hrange : (JFloat.finite m e).intValue.natAbs < 10 ^ 16) :
    dumps (.float (.finite m e)) = .ok (toString (JFloat.finite m e).intValue ++ ".0") := by
  rw [dumps_float]
  unfold encodeFloat
  rw [if_pos h]
  rfl

/-- C3 witness: the amended statement at `3.0`. -/
theorem claim_C3_witness :
    (JFloat.finite 3 0).isInteger = true ∧
    dumps (.float (.finite 3 0)) = .ok (toString (JFloat.finite 3 0).intValue ++ ".0") :=
  ⟨by decide, claim_C3 3 0 (by decide) (by decide)⟩

/-- C4 counterexample: no parser whatsoever can invert `format` on the
NaN/Infinity-free trees: the two distinct doubles `2 ^ (-24)` and
`3 * 2 ^ (-24)` both format to the text `"0"` (their values vanish under
the six-decimal rendering), so `parse(format(v)) == v` already fails on
one of them for every choice of `parse`. -/
theorem claim_C4_counterexample :
    ¬ ∃ parse : String → JVal, ∀ v s, NanFree v → dumps v = .ok s → parse s = v := by
  rintro ⟨p, hp⟩
  have h1 : p "0" = .float (.finite 1 (-24)) :=
    hp (.float (.finite 1 (-24))) "0" (.float 1 (-24)) rfl
  have h2 : p "0" = .float (.finite 3 (-24)) :=
    hp (.float (.finite 3 (-24))) "0" (.float 3 (-24)) rfl
  have h3 := h1.symm.trans h2
  simp at h3

/-- C4 amended: the round trip can recover a tree at most up to the
rendered text of its floats.  Formally, the encoder is invariant under
replacing any float of the tree by a float with the same rendered text
(`SimEq`): related trees produce literally identical results — text,
error and final level alike — at every configuration, fuel and level. -/
theorem claim_C4 (cfg : Config) (fuel lvl : Nat) (v w : JVal) (h : SimEq v w) :
    encodeF cfg fuel lvl v = encodeF cfg fuel lvl w :=
  (congrAll fuel).1 cfg lvl v w h

/-- C4 witness: the two floats of the counterexample are `SimEq`, so the
encoder cannot tell them apart. -/
theorem claim_C4_witness :
    encodeF defaultCfg 1000 0 (.float (.finite 1 (-24))) =
      encodeF defaultCfg 1000 0 (.float (.finite 3 (-24))) :=
  claim_C4 defaultCfg 1000 0 _ _ (.float _ _ (by decide))

/-- C5 counterexample: when a child raises, the increment leaks.  The
outer array of `[[<unsupported>]]` is expanded, incrementing the level to
1; encoding the inner array raises `TypeError` before the decrement runs,
so the encoder object is left at level 1, not the initial 0. -/
theorem claim_C5_counterexample :
    encodeF defaultCfg 50 0 (.arr [.arr [.unsupported 0]]) =
      (.error .unsupportedType, 1) ∧ (1 : Nat) ≠ 0 :=
  ⟨rfl, by decide⟩

/-- C5 amended: on every successful path the depth bookkeeping balances —
`encode` returns the encoder at exactly the level it was called with; on
error paths the pending decrements are skipped (there is no try/finally),
as the counterexample shows. -/
theorem claim_C5 (cfg : Config) (fuel lvl : Nat) (v : JVal) (s : String) (l2 : Nat)
    (h : encodeF cfg fuel lvl v = (.ok s, l2)) : l2 = lvl :=
  (restoreAll fuel).1 cfg lvl v s l2 h

/-- C5 witness: a successful encode from level 3 comes back at level 3. -/
theorem claim_C5_witness : (encodeF defaultCfg 10 3 (.arr [.int 1])).2 = 3 :=
  claim_C5 defaultCfg 10 3 (.arr [.int 1]) "[1]"
    (encodeF defaultCfg 10 3 (.arr [.int 1])).2 rfl

/-- C6 counterexample: with a four-space indent at depth 30, the empty
array is accepted inline (`2 + 30 * 2 < 79` with the hard-coded `2`),
although the claimed formula `len + depth * len(indent_unit) < 79` is
violated (`2 + 30 * 4 ≥ 79`). -/
theorem claim_C6_counterexample :
    encodeListF cfg4 10 30 [] = (.ok "[]", 30) ∧
    ¬ ("[]".length + 30 * cfg4.indent.length < 79) :=
  ⟨rfl, by decide⟩

/-- C6 amended: the inline width test of `_encode_list` charges exactly
2 characters per indentation level — the literal `2` of line 57 — and not
`len(indent_unit)`: an eligible inline attempt is accepted iff
`len(data) + level * 2 < 79`, for every configured indent string. -/
theorem claim_C6 (cfg : Config) (fuel lvl : Nat) (xs : List JVal)
    (parts : List String) (l2 : Nat)
    (hp : (primitivesOnlyList xs && decide (xs.length ≤ 10)) = true)
    (hs : seqEncodeF cfg fuel lvl xs = (.ok parts, l2)) :
    encodeListF cfg (fuel + 1) lvl xs =
      (if ("[" ++ joinSep ", " parts ++ "]").length + l2 * 2 < 79
        then (.ok ("[" ++ joinSep ", " parts ++ "]"), l2)
        else expandArrF cfg fuel l2 xs) := by
  simp only [encodeListF]
  rw [if_pos hp, hs]

/-- C6 witness: the amended width formula at a concrete list under the
four-space configuration. -/
theorem claim_C6_witness :
    encodeListF cfg4 6 30 [.int 1] =
      (if ("[" ++ joinSep ", " ["1"] ++ "]").length + 30 * 2 < 79
        then (.ok ("[" ++ joinSep ", " ["1"] ++ "]"), 30)
        else expandArrF cfg4 5 30 [.int 1]) :=
  claim_C6 cfg4 5 30 [.int 1] ["1"] 30 (by decide) rfl

/-- C7: key handling of `_encode_object`.  The null sentinel stringifies
to `"null"`; rebuilding the dict keeps, for every key, the value of its
last occurrence in iteration order (last write wins) and produces no
duplicate key; with `sort_keys` the emitted entry list is the ascending
permutation of that dict; and a non-empty object is rendered from exactly
this normalised entry list. -/
theorem claim_C7 (kvs : List (PyKey × JVal)) (k : String) :
    keyToText PyKey.null = "null" ∧
    lookupKey k (toDict (stringifyKeys kvs)) = lookupKey k (stringifyKeys kvs).reverse ∧
    ((toDict (stringifyKeys kvs)).map Prod.fst).Nodup ∧
    List.Perm (prepEntries true kvs) (toDict (stringifyKeys kvs)) ∧
    (prepEntries true kvs).Pairwise KeyAsc ∧
    (∀ cfg fuel lvl, kvs ≠ [] → encodeObjF cfg (fuel + 1) lvl kvs =
      expandObjF cfg fuel lvl (prepEntries cfg.sortKeys kvs)) := by
  refine ⟨rfl, lookupKey_toDict _ k, nodup_keys_toDict _, ?_, ?_, ?_⟩
  · simp only [prepEntries, if_true]
    exact perm_sortByKey _
  · simp only [prepEntries, if_true]
    exact sorted_sortByKey _
  · intro cfg fuel lvl hne
    simp only [encodeObjF]
    rw [if_neg (by simpa [List.isEmpty_iff] using hne)]

/-- C7 witness: an object whose keys are the null sentinel and the text
`"null"` collapses to a single `"null"` key carrying the later value, and
a non-empty object is rendered from its normalised entries. -/
theorem claim_C7_witness :
    lookupKey "null" (toDict (stringifyKeys [(PyKey.null, JVal.int 1), (PyKey.str "null", JVal.int 2)])) =
      lookupKey "null" (stringifyKeys [(PyKey.null, JVal.int 1), (PyKey.str "null", JVal.int 2)]).reverse ∧
    encodeObjF defaultCfg 6 0 [(PyKey.null, JVal.int 1), (PyKey.str "null", JVal.int 2)] =
      expandObjF defaultCfg 5 0
        (prepEntries true [(PyKey.null, JVal.int 1), (PyKey.str "null", JVal.int 2)]) := by
  have h := claim_C7 [(PyKey.null, JVal.int 1), (PyKey.str "null", JVal.int 2)] "null"
  exact ⟨h.2.1, h.2.2.2.2.2 defaultCfg 5 0 (by simp)⟩

/-- C8: `dump` computes the whole text with `dumps` before touching the
file; if formatting fails, the pre-existing file state is returned
untouched. -/
theorem claim_C8 (v : JVal) (file : Option String) (e : EncErr)
    (h : dumps v = .error e) : dump v file = (.error e, file) := by
  unfold dump
  rw [h]

/-- C8 witness: a failing value leaves an existing file unchanged. -/
theorem claim_C8_witness :
    dump (.unsupported 0) (some "old contents") =
      (.error .unsupportedType, some "old contents") :=
  claim_C8 (.unsupported 0) (some "old contents") .unsupportedType rfl

/-- C9: an array with a container among its immediate children always
takes the expanded path (the inline attempt requires `_primitives_only`),
whose every successful rendering contains a newline — never a single
line; and in the reference example the two inner all-scalar arrays are
rendered inline, each on its own line of the expanded outer array. -/
theorem claim_C9 (cfg : Config) (fuel lvl : Nat) (xs : List JVal)
    (h : xs.any isContainer = true) :
    encodeListF cfg (fuel + 1) lvl xs = expandArrF cfg fuel lvl xs ∧
    (∀ s l2, expandArrF cfg fuel lvl xs = (.ok s, l2) → '\n' ∈ s.data) ∧
    dumps (.arr [.arr [.int 1, .int 2], .arr [.int 3, .int 4]]) =
      .ok "[\n  [1, 2],\n  [3, 4]\n]" := by
  refine ⟨?_, ?_, rfl⟩
  · simp only [encodeListF, primitivesOnlyList, h]
    rfl
  · intro s l2 hs
    cases fuel with
    | zero => simp [expandArrF] at hs
    | succ fuel =>
      simp only [expandArrF] at hs
      rcases h1 : linesEncodeF cfg fuel (lvl + 1) xs with ⟨r1, m1⟩
      rw [h1] at hs
      cases r1 with
      | error e => simp at hs
      | ok lines =>
        simp only [Prod.mk.injEq, Except.ok.injEq] at hs
        rw [← hs.1]
        rw [strData_append, strData_append, strData_append, strData_append]
        simp

/-- C9 witness: the universal part applied to the reference example
itself. -/
theorem claim_C9_witness :
    encodeListF defaultCfg 999 0 [.arr [.int 1, .int 2], .arr [.int 3, .int 4]] =
      expandArrF defaultCfg 998 0 [.arr [.int 1, .int 2], .arr [.int 3, .int 4]] ∧
    '\n' ∈ "[\n  [1, 2],\n  [3, 4]\n]".data := by
  have h := claim_C9 defaultCfg 998 0 [.arr [.int 1, .int 2], .arr [.int 3, .int 4]] rfl
  exact ⟨h.1, h.2.1 "[\n  [1, 2],\n  [3, 4]\n]" 0 rfl⟩

/-- C10: `iterencode` returns exactly `encode`'s string (the method body
is `return self.encode(o)`), so writing through `json.dump` with this
encoder class emits the same text `dumps` returns. -/
theorem claim_C10 (cfg : Config) (fuel lvl : Nat) (v : JVal) :
    iterencodeF cfg fuel lvl v = encodeF cfg fuel lvl v :=
  rfl

end VslJson
